import Mathlib

/-!
Shallow embedding of the job-store reconciliation core of the `hunter`
repository: the record model (`src/models/job.ts`), the CSV store codec
(`src/services/csv-database.ts`) and the reconciliation engine
(`fetchNewJobOpenings`).  Strings are carried as Lean `String`
(logically a list of characters); the wall clock value that
`new Date().toISOString()` returns during one cycle is passed in
explicitly as a `now : String` parameter, and `Date.parse` (used only by
the output sort comparator) is passed in as a `time : String → Int`
parameter.
-/

namespace Hunter

/-- Partial job data, the `Partial<JobData>` argument of the `Job`
constructor: every constructor-relevant field may be absent
(`undefined`).  The extra CSV columns (`workType`, `salary`,
`employmentType`) are assigned into the raw object by the loader but are
ignored by the constructor, so they are not carried here. -/
structure JobData where
  title : Option String := none
  company : Option String := none
  location : Option String := none
  jobId : Option String := none
  postedDate : Option String := none
  description : Option String := none
  requirements : Option String := none
  experience : Option String := none
  link : Option String := none
  source : Option String := none
  scrapedAt : Option String := none
  lastUpdated : Option String := none
deriving Repr, DecidableEq

/-- Strip leading whitespace characters. -/
def dropLeadingWs : List Char → List Char
  | [] => []
  | c :: cs => if c.isWhitespace then dropLeadingWs cs else c :: cs

/-- JavaScript `String.prototype.trim`: strip whitespace from both
ends, modelled structurally over the character list so that it computes
inside the kernel. -/
def trimString (s : String) : String :=
  ⟨((dropLeadingWs ((dropLeadingWs s.data).reverse)).reverse)⟩

/-- JavaScript `x || d` for a possibly-undefined string `x`: the default
`d` is used when `x` is `undefined` or the empty string (both falsy). -/
def jsOr (x : Option String) (d : String) : String :=
  match x with
  | none => d
  | some s => if s = "" then d else s

/-- The `Job` class: all fields are strings, `uniqueKey` is derived. -/
structure Job where
  title : String
  company : String
  location : String
  jobId : String
  postedDate : String
  description : String
  requirements : String
  experience : String
  link : String
  source : String
  scrapedAt : String
  lastUpdated : String
  uniqueKey : String
deriving Repr, DecidableEq

/-- The `Job` constructor: unset string fields default to the empty
string, `scrapedAt` defaults to `new Date().toISOString()` (the cycle
clock `now`), `lastUpdated` defaults to `scrapedAt`, and `uniqueKey` is
the trimmed separator-less concatenation
`(company + title + jobId + link).trim()`. -/
def mkJob (data : JobData) (now : String) : Job :=
  let title := jsOr data.title ""
  let company := jsOr data.company ""
  let location := jsOr data.location ""
  let jobId := jsOr data.jobId ""
  let postedDate := jsOr data.postedDate ""
  let description := jsOr data.description ""
  let requirements := jsOr data.requirements ""
  let experience := jsOr data.experience ""
  let link := jsOr data.link ""
  let source := jsOr data.source ""
  let scrapedAt := jsOr data.scrapedAt now
  let lastUpdated := jsOr data.lastUpdated scrapedAt
  { title := title, company := company, location := location, jobId := jobId
    postedDate := postedDate, description := description
    requirements := requirements, experience := experience
    link := link, source := source, scrapedAt := scrapedAt
    lastUpdated := lastUpdated
    uniqueKey := trimString (company ++ title ++ jobId ++ link) }

/-- `Job.isValid`: a job must have a title and either a job ID or a
link (JavaScript truthiness on strings is non-emptiness). -/
def Job.isValid (j : Job) : Bool :=
  !(j.title == "") && (!(j.jobId == "") || !(j.link == ""))

/-- The spread `{...job}` of a `Job` back into constructor data: every
field is present. -/
def Job.asData (j : Job) : JobData :=
  { title := some j.title, company := some j.company
    location := some j.location, jobId := some j.jobId
    postedDate := some j.postedDate, description := some j.description
    requirements := some j.requirements, experience := some j.experience
    link := some j.link, source := some j.source
    scrapedAt := some j.scrapedAt, lastUpdated := some j.lastUpdated }

/-- `Job.update`: rebuild the job from `{...this, ...newData}` with the
original `scrapedAt` preserved and `lastUpdated` set to the current
clock.  `newData` is always a full `Job` at the call sites, so the
spread keeps exactly `newData`'s fields. -/
def Job.update (this : Job) (newData : Job) (now : String) : Job :=
  mkJob { newData.asData with
            scrapedAt := some this.scrapedAt
            lastUpdated := some now } now

/-- The uniqueKey recomputation `(company + title + jobId + link).trim()`
applied to a job's current fields. -/
def recomputeKey (j : Job) : String :=
  trimString (j.company ++ j.title ++ j.jobId ++ j.link)

/-- Well-formedness every `Job` produced by the class constructor with a
non-empty clock enjoys: non-empty timestamps and a `uniqueKey` that
matches its fields. -/
def Job.wf (j : Job) : Prop :=
  j.scrapedAt ≠ "" ∧ j.lastUpdated ≠ "" ∧ j.uniqueKey = recomputeKey j

instance (j : Job) : Decidable j.wf := by
  unfold Job.wf; infer_instance

/-!
## Store codec

The repository persists through the external `csv-writer` /
`csv-parser` npm packages.  Modelled from the spec: "values are plain
text (commas/quotes escaped per standard tabular-text quoting rules)" —
a field containing the delimiter, a quote or a line break is wrapped in
double quotes with inner quotes doubled; the reader is the matching
standard state machine.  The character-list carrier stands for the file
content. -/

/-- A character that forces the writer to quote a field. -/
def isSpecialChar (c : Char) : Bool :=
  c = ',' || c = '"' || c = '\n' || c = '\r'

/-- Does a field need quoting? -/
def needsQuote (s : List Char) : Bool := s.any isSpecialChar

/-- Double every quote character of a field body. -/
def escapeQuotes : List Char → List Char
  | [] => []
  | c :: cs => if c = '"' then '"' :: '"' :: escapeQuotes cs
               else c :: escapeQuotes cs

/-- Render one cell: quoted with doubled quotes when needed. -/
def escCell (s : List Char) : List Char :=
  if needsQuote s then '"' :: (escapeQuotes s ++ ['"']) else s

/-- Render one record line: cells joined by the comma delimiter. -/
def lineL : List (List Char) → List Char
  | [] => []
  | c :: cs =>
    match cs with
    | [] => escCell c
    | _ :: _ => escCell c ++ ',' :: lineL cs

/-- Render a whole file: every record line followed by a newline. -/
def contentL : List (List (List Char)) → List Char
  | [] => []
  | r :: rs => lineL r ++ '\n' :: contentL rs

/-- Read a quoted cell body after its opening quote: a doubled quote is
a literal quote, a lone quote closes the cell. -/
def parseQuoted : List Char → List Char × List Char
  | [] => ([], [])
  | c :: cs =>
    if c = '"' then
      match cs with
      | [] => ([], [])
      | c' :: cs' =>
        if c' = '"' then
          let p := parseQuoted cs'
          ('"' :: p.1, p.2)
        else ([], cs)
    else
      let p := parseQuoted cs
      (c :: p.1, p.2)

/-- Read an unquoted cell: stop before a delimiter or a record end
(`\n`, or `\r` immediately followed by `\n`). -/
def parseUnquoted : List Char → List Char × List Char
  | [] => ([], [])
  | c :: cs =>
    if c = ',' ∨ c = '\n' then ([], c :: cs)
    else if c = '\r' ∧ cs.head? = some '\n' then ([], c :: cs)
    else
      let p := parseUnquoted cs
      (c :: p.1, p.2)

/-- Read one cell, quoted or not. -/
def parseCellAt (cs : List Char) : List Char × List Char :=
  match cs with
  | [] => ([], [])
  | c :: rest => if c = '"' then parseQuoted rest else parseUnquoted (c :: rest)

theorem parseQuoted_nil : parseQuoted [] = ([], []) := rfl

theorem parseQuoted_cons_ne (c : Char) (cs : List Char) (h : ¬ c = '"') :
    parseQuoted (c :: cs) = (c :: (parseQuoted cs).1, (parseQuoted cs).2) := by
  rw [parseQuoted.eq_def]; cases cs <;> simp [h]

theorem parseQuoted_quote_nil : parseQuoted ['"'] = ([], []) := by
  rw [parseQuoted.eq_def]; simp

theorem parseQuoted_quote_quote (cs : List Char) :
    parseQuoted ('"' :: '"' :: cs) =
      ('"' :: (parseQuoted cs).1, (parseQuoted cs).2) := by
  rw [parseQuoted.eq_def]; simp

theorem parseQuoted_quote_other (c : Char) (cs : List Char) (h : ¬ c = '"') :
    parseQuoted ('"' :: c :: cs) = ([], c :: cs) := by
  rw [parseQuoted.eq_def]; simp [h]

theorem parseQuoted_length (cs : List Char) :
    (parseQuoted cs).2.length ≤ cs.length := by
  induction cs using parseQuoted.induct with
  | case1 => simp [parseQuoted_nil]
  | case2 => simp [parseQuoted_quote_nil]
  | case3 cs' ih => simp [parseQuoted_quote_quote]; omega
  | case4 c' cs' hc' => simp [parseQuoted_quote_other c' cs' hc']
  | case5 c' cs' hc' ih => simp [parseQuoted_cons_ne c' cs' hc']; omega

theorem parseUnquoted_nil : parseUnquoted [] = ([], []) := rfl

theorem parseUnquoted_stop (c : Char) (cs : List Char)
    (h : c = ',' ∨ c = '\n') :
    parseUnquoted (c :: cs) = ([], c :: cs) := by
  rw [parseUnquoted.eq_def]; simp [h]

theorem parseUnquoted_crlf (cs : List Char) (h : cs.head? = some '\n') :
    parseUnquoted ('\r' :: cs) = ([], '\r' :: cs) := by
  rw [parseUnquoted.eq_def]
  simp [h]

theorem parseUnquoted_cons (c : Char) (cs : List Char)
    (h1 : ¬ (c = ',' ∨ c = '\n'))
    (h2 : ¬ (c = '\r' ∧ cs.head? = some '\n')) :
    parseUnquoted (c :: cs) =
      (c :: (parseUnquoted cs).1, (parseUnquoted cs).2) := by
  rw [parseUnquoted.eq_def]
  simp only [if_neg h1, if_neg h2]

theorem parseUnquoted_length (cs : List Char) :
    (parseUnquoted cs).2.length ≤ cs.length := by
  induction cs using parseUnquoted.induct with
  | case1 => simp [parseUnquoted_nil]
  | case2 c cs h => simp [parseUnquoted_stop c cs h]
  | case3 c cs h1 h2 =>
    rw [parseUnquoted.eq_def]
    simp only [if_neg h1, if_pos h2]
    simp
  | case4 c cs h1 h2 ih =>
    simp [parseUnquoted_cons c cs h1 h2]
    omega

theorem parseCellAt_nil : parseCellAt [] = ([], []) := rfl

theorem parseCellAt_quote (cs : List Char) :
    parseCellAt ('"' :: cs) = parseQuoted cs := by
  rw [parseCellAt.eq_def]; simp

theorem parseCellAt_ne (c : Char) (cs : List Char) (h : ¬ c = '"') :
    parseCellAt (c :: cs) = parseUnquoted (c :: cs) := by
  rw [parseCellAt.eq_def]; simp [h]

theorem parseCellAt_length (cs : List Char) :
    (parseCellAt cs).2.length ≤ cs.length := by
  match cs with
  | [] => simp [parseCellAt_nil]
  | c :: rest =>
    by_cases h : c = '"'
    · subst h
      rw [parseCellAt_quote]
      have := parseQuoted_length rest
      simp
      omega
    · rw [parseCellAt_ne c rest h]
      exact parseUnquoted_length (c :: rest)

/-- Read the cells of one record; the returned remainder starts after
the record's terminating line break (if any). -/
def parseCells (cs : List Char) : List (List Char) × List Char :=
  match h : parseCellAt cs with
  | (cell, ',' :: r) =>
    let p := parseCells r
    (cell :: p.1, p.2)
  | (cell, '\r' :: '\n' :: r) => (cell :: [], r)
  | (cell, '\n' :: r) => (cell :: [], r)
  | (cell, _) => (cell :: [], [])
termination_by cs.length
decreasing_by
  have hle := parseCellAt_length cs
  rw [h] at hle
  simp at hle
  omega

theorem parseCells_comma (cs : List Char) (cell r : List Char)
    (h : parseCellAt cs = (cell, ',' :: r)) :
    parseCells cs = (cell :: (parseCells r).1, (parseCells r).2) := by
  rw [parseCells.eq_def]
  split <;> rename_i heq <;> rw [h] at heq <;>
    simp only [Prod.mk.injEq, List.cons.injEq] at heq
  · obtain ⟨h1, -, h3⟩ := heq
    subst h1; subst h3; rfl
  · simp at heq
  · simp at heq
  · rename_i hne1 hne2 hne3
    exact absurd heq.2.symm (by exact fun hh => hne1 r hh)

theorem parseCells_crlf (cs : List Char) (cell r : List Char)
    (h : parseCellAt cs = (cell, '\r' :: '\n' :: r)) :
    parseCells cs = ([cell], r) := by
  rw [parseCells.eq_def]
  split <;> rename_i heq <;> rw [h] at heq <;>
    simp only [Prod.mk.injEq, List.cons.injEq] at heq
  · simp at heq
  · obtain ⟨h1, -, -, h3⟩ := heq
    subst h1; subst h3; rfl
  · simp at heq
  · rename_i hne1 hne2 hne3
    exact absurd heq.2.symm (by exact fun hh => hne2 r hh)

theorem parseCells_nl (cs : List Char) (cell r : List Char)
    (h : parseCellAt cs = (cell, '\n' :: r)) :
    parseCells cs = ([cell], r) := by
  rw [parseCells.eq_def]
  split <;> rename_i heq <;> rw [h] at heq <;>
    simp only [Prod.mk.injEq, List.cons.injEq] at heq
  · simp at heq
  · simp at heq
  · obtain ⟨h1, -, h3⟩ := heq
    subst h1; subst h3; rfl
  · rename_i hne1 hne2 hne3
    exact absurd heq.2.symm (by exact fun hh => hne3 r hh)

theorem parseCells_other (cs : List Char) (cell snd : List Char)
    (h : parseCellAt cs = (cell, snd))
    (hne1 : ∀ r, snd ≠ ',' :: r)
    (hne2 : ∀ r, snd ≠ '\r' :: '\n' :: r)
    (hne3 : ∀ r, snd ≠ '\n' :: r) :
    parseCells cs = ([cell], []) := by
  rw [parseCells.eq_def]
  split <;> rename_i heq <;> rw [h] at heq <;>
    simp only [Prod.mk.injEq] at heq
  · exact absurd heq.2 (hne1 _)
  · exact absurd heq.2 (hne2 _)
  · exact absurd heq.2 (hne3 _)
  · simp_all

theorem parseCells_end (cs : List Char) (cell : List Char)
    (h : parseCellAt cs = (cell, [])) :
    parseCells cs = ([cell], []) := by
  refine parseCells_other cs cell [] h ?_ ?_ ?_ <;> intro r <;> simp

theorem parseCells_rest_length (cs : List Char) :
    (parseCells cs).2.length ≤ cs.length := by
  induction cs using parseCells.induct with
  | case1 x cell r h ih =>
    have hle := parseCellAt_length x
    rw [h] at hle
    rw [parseCells_comma x cell r h]
    simp at hle ⊢
    omega
  | case2 x cell r h =>
    have hle := parseCellAt_length x
    rw [h] at hle
    rw [parseCells_crlf x cell r h]
    simp at hle ⊢
    omega
  | case3 x cell r h =>
    have hle := parseCellAt_length x
    rw [h] at hle
    rw [parseCells_nl x cell r h]
    simp at hle ⊢
    omega
  | case4 x cell snd hne1 hne2 hne3 h =>
    rw [parseCells_other x cell snd h
      (fun r hr => hne1 r hr) (fun r hr => hne2 r hr) (fun r hr => hne3 r hr)]
    simp

theorem parseCells_rest_lt (cs : List Char) (hne : cs ≠ []) :
    (parseCells cs).2.length < cs.length := by
  have hpos : 0 < cs.length := by
    cases cs
    · simp at hne
    · simp
  by_cases h1 : ∃ cell r, parseCellAt cs = (cell, ',' :: r)
  · obtain ⟨cell, r, h⟩ := h1
    have hle := parseCellAt_length cs
    rw [h] at hle
    have hr := parseCells_rest_length r
    rw [parseCells_comma cs cell r h]
    simp at hle ⊢
    omega
  by_cases h2 : ∃ cell r, parseCellAt cs = (cell, '\r' :: '\n' :: r)
  · obtain ⟨cell, r, h⟩ := h2
    have hle := parseCellAt_length cs
    rw [h] at hle
    rw [parseCells_crlf cs cell r h]
    simp at hle ⊢
    omega
  by_cases h3 : ∃ cell r, parseCellAt cs = (cell, '\n' :: r)
  · obtain ⟨cell, r, h⟩ := h3
    have hle := parseCellAt_length cs
    rw [h] at hle
    rw [parseCells_nl cs cell r h]
    simp at hle ⊢
    omega
  · push_neg at h1 h2 h3
    rw [parseCells_other cs (parseCellAt cs).1 (parseCellAt cs).2 rfl
      (fun r hr => h1 (parseCellAt cs).1 r (by rw [← hr]))
      (fun r hr => h2 (parseCellAt cs).1 r (by rw [← hr]))
      (fun r hr => h3 (parseCellAt cs).1 r (by rw [← hr]))]
    simpa using hpos


/-- Split a whole file into records (the stream parser's record loop). -/
def parseRecords (cs : List Char) : List (List (List Char)) :=
  match cs with
  | [] => []
  | c :: cs' =>
    let p := parseCells (c :: cs')
    p.1 :: parseRecords p.2
termination_by cs.length
decreasing_by
  exact parseCells_rest_lt _ (by simp)

/-- The fixed column schema of `csv-database.ts`: human-readable header
labels, in source order (`workType`, `salary`, `employmentType` have no
`Job` field and always serialize as the empty string). -/
def headerTitles : List String :=
  ["Title", "Company", "Location", "Job ID", "Posted Date", "Work Type",
   "Description", "Requirements", "Salary", "Experience",
   "Employment Type", "Link", "Source", "Scraped At", "Last Updated"]

/-- The cell values `createObjectCsvWriter` extracts from `job.toCSV()`
for one row, in header order; the ids absent from `toCSV` (`workType`,
`salary`, `employmentType`) stringify to the empty string. -/
def rowCells (j : Job) : List String :=
  [j.title, j.company, j.location, j.jobId, j.postedDate, "",
   j.description, j.requirements, "", j.experience, "", j.link, j.source,
   j.scrapedAt, j.lastUpdated]

/-- The full file the writer produces for a record list: header line
then one line per record, each line newline-terminated. -/
def csvContent (jobs : List Job) : String :=
  ⟨contentL ((headerTitles :: jobs.map rowCells).map
      (fun row => row.map String.data))⟩

/-- Association-list `set` with JavaScript `Map.set` semantics: replace
in place when the key exists, append otherwise. -/
def assocSet {α : Type} (m : List (String × α)) (k : String) (v : α) :
    List (String × α) :=
  match m with
  | [] => [(k, v)]
  | (k', v') :: rest =>
    if k' = k then (k', v) :: rest else (k', v') :: assocSet rest k v

/-- Association-list lookup (`Map.get` / property access). -/
def assocGet {α : Type} (m : List (String × α)) (k : String) : Option α :=
  match m with
  | [] => none
  | (k', v) :: rest => if k' = k then some v else assocGet rest k

/-- The row object `csv-parser` hands to the `data` callback: header
names bound to cell values positionally; extra cells beyond the header
are dropped (the loader never reads them), extra headers beyond the
cells stay unbound. -/
def fieldsToRow (titles : List String) (cells : List String) :
    List (String × String) :=
  (titles.zip cells).foldl (fun m p => assocSet m p.1 p.2) []

/-- `row[header.title]` in `loadJobsFromDatabase`. -/
def rowValue (row : List (String × String)) (title : String) :
    Option String :=
  assocGet row title

/-- One row of `loadJobsFromDatabase`: map each known header to the
corresponding `jobData` field when the column is present (`undefined`
otherwise), then run the `Job` constructor.  The `workType`, `salary`
and `employmentType` assignments are dropped here: the constructor
ignores them. -/
def jobOfRow (row : List (String × String)) (now : String) : Job :=
  mkJob
    { title := rowValue row "Title", company := rowValue row "Company"
      location := rowValue row "Location", jobId := rowValue row "Job ID"
      postedDate := rowValue row "Posted Date"
      description := rowValue row "Description"
      requirements := rowValue row "Requirements"
      experience := rowValue row "Experience"
      link := rowValue row "Link", source := rowValue row "Source"
      scrapedAt := rowValue row "Scraped At"
      lastUpdated := rowValue row "Last Updated" } now

/-- Parse a store file: first record is the header row, every further
record is one job. -/
def loadFromContent (content : String) (now : String) : List Job :=
  match parseRecords content.data with
  | [] => []
  | headerRow :: dataRows =>
    dataRows.map (fun cells =>
      jobOfRow
        (fieldsToRow (headerRow.map (fun l => String.mk l))
          (cells.map (fun l => String.mk l))) now)

/-- The `jobsMap` of the engine: a JavaScript `Map` keyed by
`uniqueKey`, insertion-ordered. -/
abbrev JobMap := List (String × Job)

/-- `Array.from(map.values())`. -/
def mapValues (m : JobMap) : List Job := m.map Prod.snd

/-- Building `jobsMap` from the loaded records:
`existingJobs.forEach(job => jobsMap.set(job.uniqueKey, job))`. -/
def buildMap (jobs : List Job) : JobMap :=
  jobs.foldl (fun m j => assocSet m j.uniqueKey j) []

/-- One iteration of the `scrapedJobs.forEach` loop: update in place on
a key hit, otherwise insert and record the job as new. -/
def mergeStep (now : String) (acc : JobMap × List Job) (sj : Job) :
    JobMap × List Job :=
  match assocGet acc.1 sj.uniqueKey with
  | some existing =>
    (assocSet acc.1 sj.uniqueKey (existing.update sj now), acc.2)
  | none => (assocSet acc.1 sj.uniqueKey sj, acc.2 ++ [sj])

/-- The whole `forEach` loop over the scraped candidates. -/
def mergeAll (m0 : JobMap) (scraped : List Job) (now : String) :
    JobMap × List Job :=
  scraped.foldl (mergeStep now) (m0, [])

/-- The sort comparator of `fetchNewJobOpenings`, which compares
`new Date(b.scrapedAt).getTime()` with `new Date(a.scrapedAt).getTime()`:
`a` may precede `b` when `a`'s timestamp is the later one.  `Date.parse`
is the ambient `time` parameter. -/
def jobLe (time : String → Int) (a b : Job) : Bool :=
  decide (time b.scrapedAt ≤ time a.scrapedAt)

/-- The in-place `updatedJobs.sort(...)`: a stable sort by the
comparator. -/
def sortJobs (time : String → Int) (jobs : List Job) : List Job :=
  jobs.mergeSort (jobLe time)

/-- A file the engine touches is absent, readable with some content, or
present but failing to read (stream error). -/
inductive FileState
  | absent
  | readable (content : String)
  | unreadable
deriving Repr, DecidableEq

/-- The two files the engine touches: the store (`jobs.csv`) and the
delta export (`newly_added_jobs.csv`). -/
structure FSState where
  store : FileState
  delta : FileState
deriving Repr, DecidableEq

/-- The rejection of the load promise. -/
inductive CodecError
  | readFailed
deriving Repr, DecidableEq

/-- `loadJobsFromDatabase`: an absent store resolves to `[]`; a readable
store parses (the stream parser accepts any content); a failing read
rejects. -/
def loadJobsFromDatabase (fs : FSState) (now : String) :
    Except CodecError (List Job) :=
  match fs.store with
  | .absent => .ok []
  | .readable c => .ok (loadFromContent c now)
  | .unreadable => .error .readFailed

/-- `saveJobsToDatabase` at the default path: full overwrite of the
store file. -/
def saveJobsToDatabase (fs : FSState) (jobs : List Job) : FSState :=
  { fs with store := .readable (csvContent jobs) }

/-- `exportJobsToCSV` at `newJobsPath`: full overwrite of the delta
file. -/
def exportJobsToCSV (fs : FSState) (jobs : List Job) : FSState :=
  { fs with delta := .readable (csvContent jobs) }

/-- `fetchNewJobOpenings`: load the store (a rejected load propagates
before anything is written), merge the scraped candidates into the
keyed map, sort the map values by scrape timestamp descending, persist
them, export the delta, and return the new jobs. -/
def fetchNewJobOpenings (time : String → Int) (fs : FSState)
    (scrapedJobs : List Job) (now : String) :
    Except CodecError (List Job) × FSState :=
  match loadJobsFromDatabase fs now with
  | .error e => (.error e, fs)
  | .ok existingJobs =>
    let jobsMap := buildMap existingJobs
    let p := mergeAll jobsMap scrapedJobs now
    let updatedJobs := sortJobs time (mapValues p.1)
    let fs1 := saveJobsToDatabase fs updatedJobs
    let fs2 := exportJobsToCSV fs1 p.2
    (.ok p.2, fs2)

/-- The record list held by the store file (empty on load failure):
what a reader of the persisted store observes. -/
def storeList (fs : FSState) (now : String) : List Job :=
  match loadJobsFromDatabase fs now with
  | .ok l => l
  | .error _ => []

/-- The key column of the engine map. -/
def mapKeys (m : JobMap) : List String := m.map Prod.fst

/-- A concrete `Date.parse` stand-in for closed statements: accumulate
the digits of an ISO timestamp, so later timestamps of equal format map
to larger integers. -/
def digitKey (s : String) : Int :=
  s.foldl (fun n c => if c.isDigit then n * 10 + (c.toNat - 48) else n) 0

/-- A candidate failing `Job.isValid` (empty title, non-empty link). -/
def invalidCandidate : Job :=
  mkJob { company := some "ACME", link := some "https://jobs.example/1" }
    "2025-05-05T00:00:00.000Z"

/-- Key-collision pair: different field tuples, equal `uniqueKey`. -/
def collideA : Job :=
  mkJob { company := some "AB", title := some "C", jobId := some "J7"
          link := some "https://x/7" } "2025-04-04T00:00:00.000Z"

/-- Key-collision pair: different field tuples, equal `uniqueKey`. -/
def collideB : Job :=
  mkJob { company := some "A", title := some "BC", jobId := some "J7"
          link := some "https://x/7" } "2025-04-04T00:00:00.000Z"

/-- A fully-populated record whose free text holds commas, quotes and a
line break, as the round-trip property calls for. -/
def trickyRecord : Job :=
  mkJob { title := some "SDE2, \"backend\"", company := some "Amazon"
          location := some "Bangalore, KA", jobId := some "123"
          postedDate := some "2025-01-01"
          description := some "line1\nline2, with \"comma\""
          requirements := some "k8s, go", experience := some "3+"
          link := some "https://a/123", source := some "amazon" }
    "2025-01-01T00:00:00.000Z"

/-!
## Record-model lemmas
-/

theorem jsOr_some_empty (s : String) : jsOr (some s) "" = s := by
  unfold jsOr
  split <;> simp_all

theorem jsOr_some_ne (s d : String) (h : s ≠ "") : jsOr (some s) d = s := by
  unfold jsOr
  simp [h]

theorem jsOr_ne (x : Option String) (d : String) (hd : d ≠ "") :
    jsOr x d ≠ "" := by
  cases x with
  | none => simpa [jsOr] using hd
  | some s =>
    by_cases hs : s = ""
    · simpa [jsOr, hs] using hd
    · simp [jsOr, hs]

theorem mkJob_uniqueKey (data : JobData) (now : String) :
    (mkJob data now).uniqueKey = recomputeKey (mkJob data now) := rfl

theorem mkJob_wf (data : JobData) (now : String) (h : now ≠ "") :
    (mkJob data now).wf := by
  refine ⟨?_, ?_, mkJob_uniqueKey data now⟩
  · exact jsOr_ne data.scrapedAt now h
  · exact jsOr_ne data.lastUpdated (jsOr data.scrapedAt now)
      (jsOr_ne data.scrapedAt now h)

theorem update_scrapedAt (e sj : Job) (now : String) (h : e.scrapedAt ≠ "") :
    (e.update sj now).scrapedAt = e.scrapedAt := by
  simp [Job.update, mkJob, Job.asData, jsOr_some_ne _ _ h]

theorem update_lastUpdated (e sj : Job) (now : String) (h : now ≠ "") :
    (e.update sj now).lastUpdated = now := by
  simp [Job.update, mkJob, Job.asData, jsOr_some_ne _ _ h]

theorem update_uniqueKey (e sj : Job) (now : String) :
    (e.update sj now).uniqueKey = recomputeKey sj := by
  simp [Job.update, mkJob, Job.asData, recomputeKey, jsOr_some_empty]

theorem update_wf (e sj : Job) (now : String) (he : e.scrapedAt ≠ "")
    (h : now ≠ "") : (e.update sj now).wf := by
  refine ⟨?_, ?_, mkJob_uniqueKey _ _⟩
  · rw [update_scrapedAt e sj now he]; exact he
  · rw [update_lastUpdated e sj now h]; exact h

theorem mkJob_asData (j : Job) (now : String) (h1 : j.scrapedAt ≠ "")
    (h2 : j.lastUpdated ≠ "") :
    mkJob j.asData now = { j with uniqueKey := recomputeKey j } := by
  simp [mkJob, Job.asData, recomputeKey, jsOr_some_empty,
    jsOr_some_ne _ _ h1, jsOr_some_ne _ _ h2]

/-!
## Codec round-trip
-/

theorem needsQuote_eq_false (s : List Char) :
    needsQuote s = false ↔
      ∀ c ∈ s, ¬(c = ',' ∨ c = '"' ∨ c = '\n' ∨ c = '\r') := by
  rw [needsQuote, List.any_eq_false]
  refine forall_congr' (fun x => ?_)
  refine imp_congr_right (fun hx => ?_)
  rw [isSpecialChar]
  simp only [not_or, Bool.or_eq_true, decide_eq_true_eq]
  rw [and_assoc, and_assoc]

theorem parseQuoted_escape (s rest : List Char) (h : rest.head? ≠ some '"') :
    parseQuoted (escapeQuotes s ++ '"' :: rest) = (s, rest) := by
  induction s with
  | nil =>
    cases rest with
    | nil => simpa [escapeQuotes] using parseQuoted_quote_nil
    | cons c r =>
      have hc : ¬ c = '"' := by simpa using h
      simpa [escapeQuotes] using parseQuoted_quote_other c r hc
  | cons c s ih =>
    by_cases hc : c = '"'
    · subst hc
      show parseQuoted ('"' :: '"' :: (escapeQuotes s ++ '"' :: rest)) =
        ('"' :: s, rest)
      rw [parseQuoted_quote_quote, ih]
    · simp only [escapeQuotes, if_neg hc, List.cons_append]
      rw [parseQuoted_cons_ne c _ hc, ih]

theorem parseUnquoted_clean (s rest : List Char)
    (hs : ∀ c ∈ s, ¬(c = ',' ∨ c = '"' ∨ c = '\n' ∨ c = '\r'))
    (hr : rest = [] ∨ rest.head? = some ',' ∨ rest.head? = some '\n') :
    parseUnquoted (s ++ rest) = (s, rest) := by
  induction s with
  | nil =>
    rcases hr with h | h | h
    · simp [h, parseUnquoted_nil]
    · cases rest with
      | nil => simp at h
      | cons c r =>
        simp at h
        subst h
        simpa using parseUnquoted_stop ',' r (Or.inl rfl)
    · cases rest with
      | nil => simp at h
      | cons c r =>
        simp at h
        subst h
        simpa using parseUnquoted_stop '\n' r (Or.inr rfl)
  | cons c s ih =>
    have hc := hs c (by simp)
    push_neg at hc
    obtain ⟨hc1, -, hc3, hc4⟩ := hc
    rw [List.cons_append,
      parseUnquoted_cons c (s ++ rest)
        (by push_neg; exact ⟨hc1, hc3⟩)
        (by intro hh; exact hc4 hh.1),
      ih (fun x hx => hs x (by simp [hx]))]

theorem parseCellAt_escCell (s rest : List Char)
    (hr : rest = [] ∨ rest.head? = some ',' ∨ rest.head? = some '\n') :
    parseCellAt (escCell s ++ rest) = (s, rest) := by
  by_cases hq : needsQuote s
  · have hh : rest.head? ≠ some '"' := by
      rcases hr with h | h | h <;> simp [h]
    rw [escCell, if_pos hq]
    have hshape : ('"' :: (escapeQuotes s ++ ['"'])) ++ rest =
        '"' :: (escapeQuotes s ++ '"' :: rest) := by simp
    rw [hshape, parseCellAt_quote, parseQuoted_escape s rest hh]
  · have hq' : needsQuote s = false := by simpa using hq
    have hclean := (needsQuote_eq_false s).mp hq'
    rw [escCell, if_neg hq]
    cases s with
    | nil =>
      simp only [List.nil_append]
      rcases hr with h | h | h
      · simp [h, parseCellAt_nil]
      · cases rest with
        | nil => simp at h
        | cons c r =>
          simp at h
          subst h
          rw [parseCellAt_ne ',' r (by decide)]
          simpa using parseUnquoted_stop ',' r (Or.inl rfl)
      · cases rest with
        | nil => simp at h
        | cons c r =>
          simp at h
          subst h
          rw [parseCellAt_ne '\n' r (by decide)]
          simpa using parseUnquoted_stop '\n' r (Or.inr rfl)
    | cons c s' =>
      have hc := hclean c (by simp)
      rw [List.cons_append,
        parseCellAt_ne c (s' ++ rest) (fun hh => hc (Or.inr (Or.inl hh))),
        ← List.cons_append]
      exact parseUnquoted_clean (c :: s') rest hclean hr

theorem parseCells_line (cells : List (List Char)) (rest : List Char)
    (h : cells ≠ []) :
    parseCells (lineL cells ++ '\n' :: rest) = (cells, rest) := by
  induction cells with
  | nil => simp at h
  | cons c cs ih =>
    cases cs with
    | nil =>
      have hcell := parseCellAt_escCell c ('\n' :: rest)
        (Or.inr (Or.inr rfl))
      rw [lineL]
      exact parseCells_nl _ c rest hcell
    | cons c2 cs2 =>
      have hshape : lineL (c :: c2 :: cs2) ++ '\n' :: rest =
          escCell c ++ ',' :: (lineL (c2 :: cs2) ++ '\n' :: rest) := by
        rw [lineL]
        simp
      rw [hshape]
      have hcell := parseCellAt_escCell c
        (',' :: (lineL (c2 :: cs2) ++ '\n' :: rest)) (Or.inr (Or.inl rfl))
      rw [parseCells_comma _ c _ hcell, ih (by simp)]

theorem parseRecords_ne (cs : List Char) (h : cs ≠ []) :
    parseRecords cs = (parseCells cs).1 :: parseRecords (parseCells cs).2 := by
  cases cs with
  | nil => simp at h
  | cons c cs' => rw [parseRecords]

theorem parseRecords_content (rows : List (List (List Char)))
    (h : ∀ r ∈ rows, r ≠ []) :
    parseRecords (contentL rows) = rows := by
  induction rows with
  | nil => simp [contentL, parseRecords]
  | cons r rs ih =>
    rw [contentL]
    have hne : lineL r ++ '\n' :: contentL rs ≠ [] := by simp
    rw [parseRecords_ne _ hne, parseCells_line r (contentL rs) (h r (by simp))]
    simp only [List.cons.injEq, true_and]
    exact ih (fun x hx => h x (by simp [hx]))

theorem mk_data (s : String) : String.mk s.data = s := rfl

theorem map_mk_data (l : List String) :
    (l.map String.data).map String.mk = l := by
  induction l with
  | nil => rfl
  | cons s l ih =>
    show String.mk s.data :: (l.map String.data).map String.mk = s :: l
    rw [ih]

theorem jobOfRow_rowCells (j : Job) (now : String) :
    jobOfRow (fieldsToRow headerTitles (rowCells j)) now = mkJob j.asData now := by
  have hrow : fieldsToRow headerTitles (rowCells j) =
      [("Title", j.title), ("Company", j.company), ("Location", j.location),
       ("Job ID", j.jobId), ("Posted Date", j.postedDate), ("Work Type", ""),
       ("Description", j.description), ("Requirements", j.requirements),
       ("Salary", ""), ("Experience", j.experience), ("Employment Type", ""),
       ("Link", j.link), ("Source", j.source), ("Scraped At", j.scrapedAt),
       ("Last Updated", j.lastUpdated)] := by
    simp [fieldsToRow, headerTitles, rowCells, assocSet]
  rw [jobOfRow, hrow]
  simp [rowValue, assocGet, Job.asData]

theorem loadFromContent_csvContent (R : List Job) (now : String) :
    loadFromContent (csvContent R) now = R.map (fun j => mkJob j.asData now) := by
  have hrows : ∀ r ∈ (headerTitles :: R.map rowCells).map
      (fun row => row.map String.data), r ≠ [] := by
    intro r hr
    simp only [List.mem_map, List.mem_cons] at hr
    obtain ⟨row, hrow, hr⟩ := hr
    subst hr
    simp only [ne_eq, List.map_eq_nil_iff]
    rcases hrow with hrow | hrow
    · subst hrow
      intro hc
      rw [headerTitles] at hc
      cases hc
    · obtain ⟨j, -, hrow⟩ := hrow
      subst hrow
      intro hc
      rw [rowCells] at hc
      cases hc
  have hparse := parseRecords_content _ hrows
  unfold loadFromContent csvContent
  rw [show (String.mk (contentL ((headerTitles :: R.map rowCells).map
      (fun row => row.map String.data)))).data =
      contentL ((headerTitles :: R.map rowCells).map
        (fun row => row.map String.data)) from rfl]
  rw [hparse]
  simp only [List.map_cons]
  rw [map_mk_data headerTitles, List.map_map, List.map_map]
  refine List.map_congr_left (fun j hj => ?_)
  simp only [Function.comp_apply]
  rw [map_mk_data (rowCells j)]
  exact jobOfRow_rowCells j now

theorem setKey_eq_self (j : Job) (h : j.uniqueKey = recomputeKey j) :
    { j with uniqueKey := recomputeKey j } = j := by
  rw [← h]

theorem load_save_roundtrip (fs : FSState) (R : List Job) (now : String)
    (h : ∀ j ∈ R, j.scrapedAt ≠ "" ∧ j.lastUpdated ≠ "") :
    loadJobsFromDatabase (saveJobsToDatabase fs R) now =
      .ok (R.map (fun j => { j with uniqueKey := recomputeKey j })) := by
  show Except.ok (loadFromContent (csvContent R) now) = _
  rw [loadFromContent_csvContent]
  congr 1
  refine List.map_congr_left (fun j hj => ?_)
  exact mkJob_asData j now (h j hj).1 (h j hj).2

theorem load_save_wf (fs : FSState) (R : List Job) (now : String)
    (h : ∀ j ∈ R, j.wf) :
    loadJobsFromDatabase (saveJobsToDatabase fs R) now = .ok R := by
  rw [load_save_roundtrip fs R now (fun j hj => ⟨(h j hj).1, (h j hj).2.1⟩)]
  congr 1
  rw [show R.map (fun j => { j with uniqueKey := recomputeKey j }) = R.map id
    from List.map_congr_left (fun j hj => by rw [← (h j hj).2.2]; rfl)]
  exact List.map_id R

/-!
## Engine map lemmas
-/

theorem assocGet_nil {α : Type} (k : String) :
    assocGet ([] : List (String × α)) k = none := rfl

theorem assocGet_cons {α : Type} (k' : String) (v : α) (m : List (String × α))
    (k : String) :
    assocGet ((k', v) :: m) k = if k' = k then some v else assocGet m k := rfl

theorem assocSet_nil {α : Type} (k : String) (v : α) :
    assocSet ([] : List (String × α)) k v = [(k, v)] := rfl

theorem assocSet_cons {α : Type} (k' : String) (v' : α) (m : List (String × α))
    (k : String) (v : α) :
    assocSet ((k', v') :: m) k v =
      if k' = k then (k', v) :: m else (k', v') :: assocSet m k v := rfl

theorem assocGet_eq_none {α : Type} (m : List (String × α)) (k : String) :
    assocGet m k = none ↔ k ∉ m.map Prod.fst := by
  induction m with
  | nil => simp [assocGet_nil]
  | cons p m ih =>
    obtain ⟨k', v⟩ := p
    rw [assocGet_cons]
    by_cases hk : k' = k
    · subst hk
      simp
    · rw [if_neg hk, ih]
      simp only [List.map_cons, List.mem_cons, not_or]
      constructor
      · intro hh
        exact ⟨fun he => hk he.symm, hh⟩
      · intro hh
        exact hh.2

theorem assocGet_mem {α : Type} (m : List (String × α)) (k : String) (v : α)
    (h : assocGet m k = some v) : (k, v) ∈ m := by
  induction m with
  | nil => simp [assocGet_nil] at h
  | cons p m ih =>
    obtain ⟨k', v'⟩ := p
    rw [assocGet_cons] at h
    by_cases hk : k' = k
    · subst hk
      simp at h
      simp [h]
    · rw [if_neg hk] at h
      simp [ih h]

theorem mem_keys_assocSet {α : Type} (m : List (String × α)) (k k' : String)
    (v : α) :
    k' ∈ (assocSet m k v).map Prod.fst ↔ k' ∈ m.map Prod.fst ∨ k' = k := by
  induction m with
  | nil => simp [assocSet_nil, eq_comm]
  | cons p m ih =>
    obtain ⟨k0, v0⟩ := p
    rw [assocSet_cons]
    by_cases hk : k0 = k
    · subst hk
      by_cases hk' : k' = k0 <;> simp [hk', eq_comm]
    · simp only [if_neg hk, List.map_cons, List.mem_cons, ih]
      tauto

theorem keys_assocSet_mem {α : Type} (m : List (String × α)) (k : String)
    (v : α) (h : k ∈ m.map Prod.fst) :
    (assocSet m k v).map Prod.fst = m.map Prod.fst := by
  induction m with
  | nil => simp at h
  | cons p m ih =>
    obtain ⟨k0, v0⟩ := p
    rw [assocSet_cons]
    by_cases hk : k0 = k
    · rw [if_pos hk]
      simp
    · rw [if_neg hk]
      simp only [List.map_cons, List.mem_cons] at h
      rcases h with h | h
      · exact absurd h.symm hk
      · simp [ih h]

theorem keys_assocSet_not_mem {α : Type} (m : List (String × α)) (k : String)
    (v : α) (h : k ∉ m.map Prod.fst) :
    (assocSet m k v).map Prod.fst = m.map Prod.fst ++ [k] := by
  induction m with
  | nil => simp [assocSet_nil]
  | cons p m ih =>
    obtain ⟨k0, v0⟩ := p
    simp only [List.map_cons, List.mem_cons] at h
    push_neg at h
    rw [assocSet_cons, if_neg (fun hh => h.1 hh.symm)]
    simp [ih h.2]

theorem nodup_keys_assocSet {α : Type} (m : List (String × α)) (k : String)
    (v : α) (h : (m.map Prod.fst).Nodup) :
    ((assocSet m k v).map Prod.fst).Nodup := by
  by_cases hk : k ∈ m.map Prod.fst
  · rw [keys_assocSet_mem m k v hk]
    exact h
  · rw [keys_assocSet_not_mem m k v hk, List.nodup_append]
    refine ⟨h, List.nodup_singleton k, ?_⟩
    intro a ha hb
    rw [List.mem_singleton] at hb
    subst hb
    exact hk ha

theorem mem_assocSet {α : Type} (m : List (String × α)) (k : String) (v : α)
    (p : String × α) (h : p ∈ assocSet m k v) : p ∈ m ∨ p = (k, v) := by
  induction m with
  | nil =>
    simp [assocSet_nil] at h
    simp [h]
  | cons q m ih =>
    obtain ⟨k0, v0⟩ := q
    rw [assocSet_cons] at h
    by_cases hk : k0 = k
    · subst hk
      rw [if_pos rfl] at h
      rcases List.mem_cons.mp h with h1 | h1
      · exact Or.inr h1
      · exact Or.inl (List.mem_cons.mpr (Or.inr h1))
    · rw [if_neg hk] at h
      rcases List.mem_cons.mp h with h1 | h1
      · exact Or.inl (List.mem_cons.mpr (Or.inl h1))
      · rcases ih h1 with h2 | h2
        · exact Or.inl (List.mem_cons.mpr (Or.inr h2))
        · exact Or.inr h2

theorem assocGet_middle {α : Type} (r1 r2 : List (String × α)) (t k : String)
    (v : α) (h : k ≠ t) :
    assocGet (r1 ++ (t, v) :: r2) k = assocGet (r1 ++ r2) k := by
  induction r1 with
  | nil =>
    simp only [List.nil_append, assocGet_cons]
    rw [if_neg (fun hh => h hh.symm)]
  | cons p r1 ih =>
    obtain ⟨k0, v0⟩ := p
    simp only [List.cons_append, assocGet_cons]
    rw [ih]

theorem buildMap_entries_aux (jobs : List Job) (m0 : JobMap) :
    ∀ p ∈ jobs.foldl (fun m j => assocSet m j.uniqueKey j) m0,
      p ∈ m0 ∨ ∃ j ∈ jobs, p = (j.uniqueKey, j) := by
  induction jobs generalizing m0 with
  | nil => intro p hp; exact Or.inl hp
  | cons j js ih =>
    intro p hp
    rw [List.foldl_cons] at hp
    rcases ih (assocSet m0 j.uniqueKey j) p hp with h | h
    · rcases mem_assocSet m0 j.uniqueKey j p h with h' | h'
      · exact Or.inl h'
      · exact Or.inr ⟨j, by simp, h'⟩
    · obtain ⟨x, hx, hpx⟩ := h
      exact Or.inr ⟨x, by simp [hx], hpx⟩

theorem buildMap_entries (jobs : List Job) (p : String × Job)
    (hp : p ∈ buildMap jobs) : ∃ j ∈ jobs, p = (j.uniqueKey, j) := by
  rcases buildMap_entries_aux jobs [] p hp with h | h
  · simp at h
  · exact h

theorem mem_keys_buildMap_aux (jobs : List Job) (m0 : JobMap) (k : String) :
    k ∈ (jobs.foldl (fun m j => assocSet m j.uniqueKey j) m0).map Prod.fst ↔
      k ∈ m0.map Prod.fst ∨ k ∈ jobs.map Job.uniqueKey := by
  induction jobs generalizing m0 with
  | nil => simp
  | cons j js ih =>
    rw [List.foldl_cons, ih, mem_keys_assocSet]
    simp only [List.map_cons, List.mem_cons]
    tauto

theorem mem_keys_buildMap (jobs : List Job) (k : String) :
    k ∈ (buildMap jobs).map Prod.fst ↔ k ∈ jobs.map Job.uniqueKey := by
  rw [buildMap, mem_keys_buildMap_aux]
  simp

theorem nodup_keys_buildMap_aux (jobs : List Job) (m0 : JobMap)
    (h : (m0.map Prod.fst).Nodup) :
    ((jobs.foldl (fun m j => assocSet m j.uniqueKey j) m0).map Prod.fst).Nodup := by
  induction jobs generalizing m0 with
  | nil => exact h
  | cons j js ih =>
    rw [List.foldl_cons]
    exact ih _ (nodup_keys_assocSet m0 j.uniqueKey j h)

theorem nodup_keys_buildMap (jobs : List Job) :
    ((buildMap jobs).map Prod.fst).Nodup :=
  nodup_keys_buildMap_aux jobs [] (by simp)

theorem keys_buildMap_nodup_aux (jobs : List Job) (m0 : JobMap)
    (hd : ∀ j ∈ jobs, j.uniqueKey ∉ m0.map Prod.fst)
    (hn : (jobs.map Job.uniqueKey).Nodup) :
    (jobs.foldl (fun m j => assocSet m j.uniqueKey j) m0).map Prod.fst =
      m0.map Prod.fst ++ jobs.map Job.uniqueKey := by
  induction jobs generalizing m0 with
  | nil => simp
  | cons j js ih =>
    rw [List.foldl_cons, ih]
    · rw [keys_assocSet_not_mem m0 j.uniqueKey j (hd j (by simp))]
      simp
    · intro x hx
      rw [keys_assocSet_not_mem m0 j.uniqueKey j (hd j (by simp))]
      simp only [List.mem_append, List.mem_singleton, not_or]
      refine ⟨hd x (by simp [hx]), ?_⟩
      rw [List.map_cons, List.nodup_cons] at hn
      intro he
      exact hn.1 (he ▸ List.mem_map_of_mem Job.uniqueKey hx)
    · rw [List.map_cons, List.nodup_cons] at hn
      exact hn.2

theorem keys_buildMap_of_nodup (jobs : List Job)
    (hn : (jobs.map Job.uniqueKey).Nodup) :
    (buildMap jobs).map Prod.fst = jobs.map Job.uniqueKey := by
  rw [buildMap, keys_buildMap_nodup_aux jobs [] (by simp) hn]
  simp

theorem length_buildMap_of_nodup (jobs : List Job)
    (hn : (jobs.map Job.uniqueKey).Nodup) :
    (buildMap jobs).length = jobs.length := by
  have h1 : ((buildMap jobs).map Prod.fst).length = (jobs.map Job.uniqueKey).length := by
    rw [keys_buildMap_of_nodup jobs hn]
  simpa using h1

theorem assocGet_ne_none {α : Type} (m : List (String × α)) (k : String)
    (h : k ∈ m.map Prod.fst) : assocGet m k ≠ none := by
  intro hc
  exact ((assocGet_eq_none m k).mp hc) h

theorem mergeStep_keys_mono (now : String) (acc : JobMap × List Job) (sj : Job)
    (k : String) (h : k ∈ acc.1.map Prod.fst) :
    k ∈ (mergeStep now acc sj).1.map Prod.fst := by
  rw [mergeStep]
  cases hq : assocGet acc.1 sj.uniqueKey with
  | some e => exact (mem_keys_assocSet _ _ _ _).mpr (Or.inl h)
  | none => exact (mem_keys_assocSet _ _ _ _).mpr (Or.inl h)

theorem mergeAll_keys_mono_aux (scraped : List Job) (now : String)
    (acc : JobMap × List Job) (k : String) (h : k ∈ acc.1.map Prod.fst) :
    k ∈ (scraped.foldl (mergeStep now) acc).1.map Prod.fst := by
  induction scraped generalizing acc with
  | nil => exact h
  | cons x xs ih =>
    rw [List.foldl_cons]
    exact ih _ (mergeStep_keys_mono now acc x k h)

theorem mem_keys_mergeAll_aux (scraped : List Job) (now : String)
    (acc : JobMap × List Job) (x : Job) (hx : x ∈ scraped) :
    x.uniqueKey ∈ (scraped.foldl (mergeStep now) acc).1.map Prod.fst := by
  induction scraped generalizing acc with
  | nil => simp at hx
  | cons y ys ih =>
    rw [List.foldl_cons]
    rcases List.mem_cons.mp hx with hx | hx
    · subst hx
      have hk : x.uniqueKey ∈ (mergeStep now acc x).1.map Prod.fst := by
        rw [mergeStep]
        cases hq : assocGet acc.1 x.uniqueKey with
        | some e => exact (mem_keys_assocSet _ _ _ _).mpr (Or.inr rfl)
        | none => exact (mem_keys_assocSet _ _ _ _).mpr (Or.inr rfl)
      exact mergeAll_keys_mono_aux ys now (mergeStep now acc x) x.uniqueKey hk
    · exact ih (mergeStep now acc y) hx

theorem mem_keys_mergeAll (m0 : JobMap) (scraped : List Job) (now : String)
    (x : Job) (hx : x ∈ scraped) :
    x.uniqueKey ∈ (mergeAll m0 scraped now).1.map Prod.fst :=
  mem_keys_mergeAll_aux scraped now (m0, []) x hx

theorem mergeAll_hit_aux (scraped : List Job) (now : String) (m : JobMap)
    (new : List Job) (h : ∀ x ∈ scraped, x.uniqueKey ∈ m.map Prod.fst) :
    (scraped.foldl (mergeStep now) (m, new)).2 = new ∧
      (scraped.foldl (mergeStep now) (m, new)).1.map Prod.fst =
        m.map Prod.fst := by
  induction scraped generalizing m new with
  | nil => exact ⟨rfl, rfl⟩
  | cons x xs ih =>
    rw [List.foldl_cons]
    have hx := h x (by simp)
    cases hq : assocGet m x.uniqueKey with
    | none => exact absurd hq (assocGet_ne_none m x.uniqueKey hx)
    | some e =>
      have hstep : mergeStep now (m, new) x =
          (assocSet m x.uniqueKey (e.update x now), new) := by
        rw [mergeStep]
        rw [show (m, new).1 = m from rfl, hq]
      rw [hstep]
      have hkeys := keys_assocSet_mem m x.uniqueKey (e.update x now) hx
      have := ih (assocSet m x.uniqueKey (e.update x now)) new
        (fun y hy => hkeys ▸ h y (by simp [hy]))
      rw [this.1, this.2, hkeys]
      exact ⟨rfl, rfl⟩

theorem mergeAll_hit (m0 : JobMap) (scraped : List Job) (now : String)
    (h : ∀ x ∈ scraped, x.uniqueKey ∈ m0.map Prod.fst) :
    (mergeAll m0 scraped now).2 = [] ∧
      (mergeAll m0 scraped now).1.map Prod.fst = m0.map Prod.fst :=
  mergeAll_hit_aux scraped now m0 [] h

/-- The entry invariant of the engine map: every binding's key is its
value's `uniqueKey` and every value is well-formed. -/
def EntryOk (m : JobMap) : Prop :=
  ∀ p ∈ m, p.1 = p.2.uniqueKey ∧ p.2.wf

theorem entryOk_assocSet (m : JobMap) (j : Job) (hm : EntryOk m)
    (hj : j.wf) : EntryOk (assocSet m j.uniqueKey j) := by
  intro p hp
  rcases mem_assocSet m j.uniqueKey j p hp with h | h
  · exact hm p h
  · subst h
    exact ⟨rfl, hj⟩

theorem mergeAll_entryOk_aux (scraped : List Job) (now : String) (m : JobMap)
    (new : List Job) (hnow : now ≠ "") (hs : ∀ x ∈ scraped, x.wf)
    (hm : EntryOk m) :
    EntryOk (scraped.foldl (mergeStep now) (m, new)).1 := by
  induction scraped generalizing m new with
  | nil => exact hm
  | cons x xs ih =>
    rw [List.foldl_cons]
    have hx := hs x (by simp)
    cases hq : assocGet m x.uniqueKey with
    | none =>
      have hstep : mergeStep now (m, new) x =
          (assocSet m x.uniqueKey x, new ++ [x]) := by
        rw [mergeStep]
        rw [show (m, new).1 = m from rfl, hq]
      rw [hstep]
      refine ih _ _ (fun y hy => hs y (by simp [hy])) ?_
      intro p hp
      rcases mem_assocSet m x.uniqueKey x p hp with h | h
      · exact hm p h
      · subst h
        exact ⟨hx.2.2.symm ▸ rfl, hx⟩
    | some e =>
      have hstep : mergeStep now (m, new) x =
          (assocSet m x.uniqueKey (e.update x now), new) := by
        rw [mergeStep]
        rw [show (m, new).1 = m from rfl, hq]
      rw [hstep]
      refine ih _ _ (fun y hy => hs y (by simp [hy])) ?_
      intro p hp
      rcases mem_assocSet m x.uniqueKey (e.update x now) p hp with h | h
      · exact hm p h
      · subst h
        have he := hm (x.uniqueKey, e) (assocGet_mem m x.uniqueKey e hq)
        refine ⟨?_, update_wf e x now he.2.1 hnow⟩
        rw [update_uniqueKey e x now, ← hx.2.2]

theorem mergeAll_entryOk (m0 : JobMap) (scraped : List Job) (now : String)
    (hnow : now ≠ "") (hs : ∀ x ∈ scraped, x.wf) (hm : EntryOk m0) :
    EntryOk (mergeAll m0 scraped now).1 :=
  mergeAll_entryOk_aux scraped now m0 [] hnow hs hm

theorem mergeAll_nodup_aux (scraped : List Job) (now : String) (m : JobMap)
    (new : List Job) (hm : (m.map Prod.fst).Nodup) :
    ((scraped.foldl (mergeStep now) (m, new)).1.map Prod.fst).Nodup := by
  induction scraped generalizing m new with
  | nil => exact hm
  | cons x xs ih =>
    rw [List.foldl_cons]
    cases hq : assocGet m x.uniqueKey with
    | none =>
      have hstep : mergeStep now (m, new) x =
          (assocSet m x.uniqueKey x, new ++ [x]) := by
        rw [mergeStep]
        rw [show (m, new).1 = m from rfl, hq]
      rw [hstep]
      exact ih _ _ (nodup_keys_assocSet m x.uniqueKey x hm)
    | some e =>
      have hstep : mergeStep now (m, new) x =
          (assocSet m x.uniqueKey (e.update x now), new) := by
        rw [mergeStep]
        rw [show (m, new).1 = m from rfl, hq]
      rw [hstep]
      exact ih _ _ (nodup_keys_assocSet m x.uniqueKey (e.update x now) hm)

theorem mergeAll_delta_aux (scraped : List Job) (now : String) (m : JobMap)
    (new : List Job)
    (hsub : ∀ j ∈ new, j.uniqueKey ∈ m.map Prod.fst)
    (hdist : new.Pairwise (fun a b => a.uniqueKey ≠ b.uniqueKey)) :
    (scraped.foldl (mergeStep now) (m, new)).2.Pairwise
      (fun a b => a.uniqueKey ≠ b.uniqueKey) := by
  induction scraped generalizing m new with
  | nil => exact hdist
  | cons x xs ih =>
    rw [List.foldl_cons]
    cases hq : assocGet m x.uniqueKey with
    | some e =>
      have hstep : mergeStep now (m, new) x =
          (assocSet m x.uniqueKey (e.update x now), new) := by
        rw [mergeStep]
        rw [show (m, new).1 = m from rfl, hq]
      rw [hstep]
      refine ih _ _ ?_ hdist
      intro j hj
      have hxk : x.uniqueKey ∈ m.map Prod.fst := by
        by_contra hc
        rw [(assocGet_eq_none m x.uniqueKey).mpr hc] at hq
        cases hq
      rw [keys_assocSet_mem m x.uniqueKey (e.update x now) hxk]
      exact hsub j hj
    | none =>
      have hfresh : x.uniqueKey ∉ m.map Prod.fst :=
        (assocGet_eq_none m x.uniqueKey).mp hq
      have hstep : mergeStep now (m, new) x =
          (assocSet m x.uniqueKey x, new ++ [x]) := by
        rw [mergeStep]
        rw [show (m, new).1 = m from rfl, hq]
      rw [hstep]
      refine ih _ _ ?_ ?_
      · intro j hj
        rcases List.mem_append.mp hj with hj | hj
        · exact (mem_keys_assocSet _ _ _ _).mpr (Or.inl (hsub j hj))
        · rw [List.mem_singleton] at hj
          subst hj
          exact (mem_keys_assocSet _ _ _ _).mpr (Or.inr rfl)
      · rw [List.pairwise_append]
        refine ⟨hdist, List.pairwise_singleton _ _, ?_⟩
        intro a ha b hb
        rw [List.mem_singleton] at hb
        subst hb
        intro he
        exact hfresh (he ▸ hsub a ha)

theorem mergeAll_delta (m0 : JobMap) (scraped : List Job) (now : String) :
    (mergeAll m0 scraped now).2.Pairwise
      (fun a b => a.uniqueKey ≠ b.uniqueKey) :=
  mergeAll_delta_aux scraped now m0 [] (by simp) (by simp)

theorem keys_eq_values_map (m : JobMap)
    (h : ∀ p ∈ m, p.1 = p.2.uniqueKey) :
    m.map Prod.fst = (mapValues m).map Job.uniqueKey := by
  rw [mapValues, List.map_map]
  exact List.map_congr_left (fun p hp => h p hp)

theorem sortJobs_perm (time : String → Int) (l : List Job) :
    (sortJobs time l).Perm l :=
  List.mergeSort_perm l (jobLe time)

theorem sortJobs_length (time : String → Int) (l : List Job) :
    (sortJobs time l).length = l.length :=
  (sortJobs_perm time l).length_eq

theorem sortJobs_sorted (time : String → Int) (l : List Job) :
    (sortJobs time l).Pairwise
      (fun a b => time b.scrapedAt ≤ time a.scrapedAt) := by
  have htrans : ∀ a b c : Job, jobLe time a b = true → jobLe time b c = true →
      jobLe time a c = true := by
    intro a b c hab hbc
    simp only [jobLe, decide_eq_true_eq] at hab hbc ⊢
    exact le_trans hbc hab
  have htotal : ∀ a b : Job, (jobLe time a b || jobLe time b a) = true := by
    intro a b
    simp only [jobLe]
    rcases le_total (time b.scrapedAt) (time a.scrapedAt) with h | h <;>
      simp [h]
  have h := List.sorted_mergeSort htrans htotal l
  exact h.imp (fun hab => by simpa [jobLe] using hab)

theorem loadFromContent_wf (c : String) (now : String) (hnow : now ≠ "") :
    ∀ j ∈ loadFromContent c now, j.wf := by
  intro j hj
  rw [loadFromContent] at hj
  rcases hp : parseRecords c.data with _ | ⟨headerRow, dataRows⟩
  · rw [hp] at hj
    cases hj
  · rw [hp] at hj
    simp only [List.mem_map] at hj
    obtain ⟨cells, -, hj⟩ := hj
    subst hj
    exact mkJob_wf _ now hnow

theorem load_wf (fs : FSState) (now : String) (l : List Job)
    (hnow : now ≠ "") (h : loadJobsFromDatabase fs now = .ok l) :
    ∀ j ∈ l, j.wf := by
  rw [loadJobsFromDatabase] at h
  rcases hst : fs.store with _ | c
  · rw [hst] at h
    simp at h
    subst h
    intro j hj
    cases hj
  · rw [hst] at h
    simp at h
    subst h
    exact loadFromContent_wf c now hnow
  · rw [hst] at h
    simp at h

theorem load_exportJobsToCSV (fs : FSState) (jobs : List Job) (now : String) :
    loadJobsFromDatabase (exportJobsToCSV fs jobs) now =
      loadJobsFromDatabase fs now := rfl

theorem fetch_ok (time : String → Int) (fs : FSState) (scraped : List Job)
    (now : String) (ex : List Job)
    (h : loadJobsFromDatabase fs now = .ok ex) :
    fetchNewJobOpenings time fs scraped now =
      (.ok (mergeAll (buildMap ex) scraped now).2,
       exportJobsToCSV
         (saveJobsToDatabase fs
           (sortJobs time (mapValues (mergeAll (buildMap ex) scraped now).1)))
         (mergeAll (buildMap ex) scraped now).2) := by
  rw [fetchNewJobOpenings, h]

theorem fetch_err (time : String → Int) (fs : FSState) (scraped : List Job)
    (now : String) (e : CodecError)
    (h : loadJobsFromDatabase fs now = .error e) :
    fetchNewJobOpenings time fs scraped now = (.error e, fs) := by
  rw [fetchNewJobOpenings, h]

theorem sortJobs_singleton (time : String → Int) (j : Job) :
    sortJobs time [j] = [j] := by
  simp [sortJobs, List.mergeSort]

theorem buildMap_singleton (j : Job) : buildMap [j] = [(j.uniqueKey, j)] := rfl

theorem mergeAll_single_hit (k : String) (e sj : Job) (now : String)
    (h : sj.uniqueKey = k) :
    mergeAll [(k, e)] [sj] now = ([(k, e.update sj now)], []) := by
  have hget : assocGet ([(k, e)] : JobMap) sj.uniqueKey = some e := by
    rw [assocGet_cons, if_pos h.symm]
  have hset : assocSet ([(k, e)] : JobMap) sj.uniqueKey (e.update sj now) =
      [(k, e.update sj now)] := by
    rw [assocSet_cons, if_pos h.symm]
  have hstep : mergeStep now (([(k, e)] : JobMap), ([] : List Job)) sj =
      (assocSet [(k, e)] sj.uniqueKey (e.update sj now), []) := by
    rw [mergeStep]
    rw [show (([(k, e)] : JobMap), ([] : List Job)).1 = [(k, e)] from rfl,
      hget]
  show mergeStep now (([(k, e)] : JobMap), ([] : List Job)) sj = _
  rw [hstep, hset]

/-- The scenario candidate of the spec's first-seen property. -/
def scenarioFirst : Job :=
  mkJob { title := some "SDE2", company := some "Amazon"
          jobId := some "123", link := some "https://a/123" }
    "2025-01-01T00:00:00.000Z"

/-- The same posting scraped again later with a changed description. -/
def scenarioSecond : Job :=
  mkJob { title := some "SDE2", company := some "Amazon"
          jobId := some "123", link := some "https://a/123"
          description := some "updated" } "2025-02-02T00:00:00.000Z"

/-!
## Claim theorems
-/

/-- C5: Codec-error atomicity — when loading the store fails, the
engine propagates the error to the caller and writes nothing: both
files are exactly as before the call. -/
theorem claim_load_failure_atomic (time : String → Int) (fs : FSState)
    (scraped : List Job) (now : String) (e : CodecError)
    (h : loadJobsFromDatabase fs now = .error e) :
    fetchNewJobOpenings time fs scraped now = (.error e, fs) :=
  fetch_err time fs scraped now e h

/-- Witness for C5 at a store whose read fails. -/
theorem claim_load_failure_atomic_witness :
    fetchNewJobOpenings digitKey ⟨FileState.unreadable, FileState.absent⟩ []
        "2025-01-01T00:00:00.000Z" =
      (.error CodecError.readFailed,
       ⟨FileState.unreadable, FileState.absent⟩) :=
  claim_load_failure_atomic digitKey ⟨FileState.unreadable, FileState.absent⟩
    [] "2025-01-01T00:00:00.000Z" CodecError.readFailed rfl

/-- C8: an absent store file loads as the empty record list, and a load
can fail only when the file exists and reading it fails. -/
theorem claim_absent_store_empty (fs : FSState) (now : String) :
    (fs.store = FileState.absent → loadJobsFromDatabase fs now = .ok []) ∧
    (∀ e : CodecError, loadJobsFromDatabase fs now = .error e →
      fs.store ≠ FileState.absent ∧ fs.store = FileState.unreadable) := by
  constructor
  · intro h
    rw [loadJobsFromDatabase, h]
  · intro e he
    rcases hst : fs.store with _ | c
    · rw [loadJobsFromDatabase, hst] at he
      cases he
    · rw [loadJobsFromDatabase, hst] at he
      cases he
    · exact ⟨fun hc => FileState.noConfusion hc, rfl⟩

/-- Witness for C8: an absent store loads as `[]`; the failing store is
the unreadable one. -/
theorem claim_absent_store_empty_witness :
    loadJobsFromDatabase ⟨FileState.absent, FileState.absent⟩ "t" = .ok [] ∧
    (FSState.mk FileState.unreadable FileState.absent).store =
      FileState.unreadable :=
  ⟨(claim_absent_store_empty ⟨FileState.absent, FileState.absent⟩ "t").1 rfl,
   ((claim_absent_store_empty ⟨FileState.unreadable, FileState.absent⟩
      "t").2 CodecError.readFailed rfl).2⟩

/-- C9: two jobs whose (company, title) tuples differ concatenate to
the same `uniqueKey`, and the engine treats them as one posting: only
the first enters the delta. -/
theorem claim_identity_key_collision :
    collideA.company ≠ collideB.company ∧
    collideA.title ≠ collideB.title ∧
    collideA.uniqueKey = collideB.uniqueKey ∧
    (fetchNewJobOpenings (fun _ => 0) ⟨FileState.absent, FileState.absent⟩
        [collideA, collideB] "2025-04-04T00:00:00.000Z").1 =
      .ok [collideA] := by
  refine ⟨by decide, by decide, by decide, ?_⟩
  rfl

/-- C10: the delta list returned by a successful reconcile holds at
most one record per identity key. -/
theorem claim_delta_keys_distinct (time : String → Int) (fs : FSState)
    (scraped : List Job) (now : String) (newJobs : List Job) (fs' : FSState)
    (h : fetchNewJobOpenings time fs scraped now = (.ok newJobs, fs')) :
    newJobs.Pairwise (fun a b => a.uniqueKey ≠ b.uniqueKey) := by
  rcases hload : loadJobsFromDatabase fs now with e | ex
  · rw [fetch_err time fs scraped now e hload] at h
    rw [Prod.mk.injEq] at h
    cases h.1
  · rw [fetch_ok time fs scraped now ex hload] at h
    rw [Prod.mk.injEq] at h
    have hnew : newJobs = (mergeAll (buildMap ex) scraped now).2 := by
      have h1 := h.1
      cases h1
      rfl
    rw [hnew]
    exact mergeAll_delta (buildMap ex) scraped now

/-- Witness for C10 on a candidate list holding two jobs with the same
identity key. -/
theorem claim_delta_keys_distinct_witness :
    ([collideA] : List Job).Pairwise
      (fun a b => a.uniqueKey ≠ b.uniqueKey) :=
  claim_delta_keys_distinct (fun _ => 0)
    ⟨FileState.absent, FileState.absent⟩ [collideA, collideB]
    "2025-04-04T00:00:00.000Z" [collideA]
    (fetchNewJobOpenings (fun _ => 0) ⟨FileState.absent, FileState.absent⟩
      [collideA, collideB] "2025-04-04T00:00:00.000Z").2 rfl

/-- C7: a successful reconcile persists exactly the merged map's values
sorted by scrape timestamp descending (newest first). -/
theorem claim_output_sorted (time : String → Int) (fs : FSState)
    (scraped : List Job) (now : String) (ex : List Job)
    (h : loadJobsFromDatabase fs now = .ok ex) :
    (fetchNewJobOpenings time fs scraped now).2.store =
      FileState.readable (csvContent
        (sortJobs time (mapValues (mergeAll (buildMap ex) scraped now).1))) ∧
    (sortJobs time (mapValues (mergeAll (buildMap ex) scraped now).1)).Perm
      (mapValues (mergeAll (buildMap ex) scraped now).1) ∧
    (sortJobs time (mapValues (mergeAll (buildMap ex) scraped now).1)).Pairwise
      (fun a b => time b.scrapedAt ≤ time a.scrapedAt) := by
  refine ⟨?_, sortJobs_perm _ _, sortJobs_sorted _ _⟩
  rw [fetch_ok time fs scraped now ex h]
  rfl

/-- Witness for C7 on a one-candidate run from an absent store. -/
theorem claim_output_sorted_witness :
    (fetchNewJobOpenings digitKey ⟨FileState.absent, FileState.absent⟩
        [trickyRecord] "2025-01-01T00:00:00.000Z").2.store =
      FileState.readable (csvContent (sortJobs digitKey (mapValues
        (mergeAll (buildMap []) [trickyRecord]
          "2025-01-01T00:00:00.000Z").1))) ∧
    (sortJobs digitKey (mapValues (mergeAll (buildMap []) [trickyRecord]
        "2025-01-01T00:00:00.000Z").1)).Perm
      (mapValues (mergeAll (buildMap []) [trickyRecord]
        "2025-01-01T00:00:00.000Z").1) ∧
    (sortJobs digitKey (mapValues (mergeAll (buildMap []) [trickyRecord]
        "2025-01-01T00:00:00.000Z").1)).Pairwise
      (fun a b => digitKey b.scrapedAt ≤ digitKey a.scrapedAt) :=
  claim_output_sorted digitKey ⟨FileState.absent, FileState.absent⟩
    [trickyRecord] "2025-01-01T00:00:00.000Z" [] rfl

/-- C2 counterexample: a candidate with an empty title (failing
`isValid`) is returned in `newRecords` by `fetchNewJobOpenings` — it is
not dropped before the merge. -/
theorem claim_invalid_dropped_counterexample :
    invalidCandidate.isValid = false ∧
    (fetchNewJobOpenings (fun _ => 0) ⟨FileState.absent, FileState.absent⟩
        [invalidCandidate] "2025-05-05T00:00:00.000Z").1 =
      .ok [invalidCandidate] :=
  ⟨rfl, rfl⟩

/-- C2 (amended): `fetchNewJobOpenings` applies no validity filter —
a candidate failing `isValid` is merged like any other, lands in the
delta and in the persisted store, and no error is raised. -/
theorem claim_invalid_not_dropped (time : String → Int) (j : Job)
    (now : String) (hw : j.wf) (hinv : j.isValid = false) (hnow : now ≠ "") :
    (fetchNewJobOpenings time ⟨FileState.absent, FileState.absent⟩
        [j] now).1 = .ok [j] ∧
    storeList (fetchNewJobOpenings time ⟨FileState.absent, FileState.absent⟩
        [j] now).2 now = [j] := by
  have hload : loadJobsFromDatabase ⟨FileState.absent, FileState.absent⟩
      now = .ok [] := rfl
  rw [fetch_ok time ⟨FileState.absent, FileState.absent⟩ [j] now [] hload]
  have hm : mergeAll (buildMap []) [j] now = ([(j.uniqueKey, j)], [j]) := rfl
  constructor
  · rw [hm]
  · rw [hm]
    show storeList (exportJobsToCSV (saveJobsToDatabase
      ⟨FileState.absent, FileState.absent⟩ (sortJobs time [j])) [j]) now = [j]
    rw [sortJobs_singleton, storeList, load_exportJobsToCSV,
      load_save_wf ⟨FileState.absent, FileState.absent⟩ [j] now
        (fun x hx => by rw [List.mem_singleton] at hx; subst hx; exact hw)]

/-- Witness for C2 (amended) at a concrete invalid candidate. -/
theorem claim_invalid_not_dropped_witness :
    (fetchNewJobOpenings digitKey ⟨FileState.absent, FileState.absent⟩
        [invalidCandidate] "2025-05-05T00:00:00.000Z").1 =
      .ok [invalidCandidate] ∧
    storeList (fetchNewJobOpenings digitKey
        ⟨FileState.absent, FileState.absent⟩ [invalidCandidate]
        "2025-05-05T00:00:00.000Z").2 "2025-05-05T00:00:00.000Z" =
      [invalidCandidate] :=
  claim_invalid_not_dropped digitKey invalidCandidate
    "2025-05-05T00:00:00.000Z" (by decide) (by decide) (by decide)

/-- C6 counterexample: loading a store whose header has only a Title
column yields a record whose `scrapedAt` is the load-time clock, not
the empty string. -/
theorem claim_missing_column_counterexample :
    loadJobsFromDatabase
        ⟨FileState.readable "Title\nX\n", FileState.absent⟩
        "2026-01-01T00:00:00.000Z" =
      .ok [mkJob { title := some "X" } "2026-01-01T00:00:00.000Z"] ∧
    (mkJob { title := some "X" } "2026-01-01T00:00:00.000Z").scrapedAt =
      "2026-01-01T00:00:00.000Z" ∧
    ("2026-01-01T00:00:00.000Z" : String) ≠ "" := by
  refine ⟨?_, rfl, by decide⟩
  show Except.ok (loadFromContent "Title\nX\n" "2026-01-01T00:00:00.000Z") = _
  have hdata : ("Title\nX\n" : String).data =
      contentL [[("Title" : String).data], [("X" : String).data]] := rfl
  have hne : ∀ r ∈ [[("Title" : String).data], [("X" : String).data]],
      r ≠ [] := by
    intro r hr
    rcases List.mem_cons.mp hr with h | h
    · subst h; simp
    · rw [List.mem_singleton] at h; subst h; simp
  rw [loadFromContent, hdata, parseRecords_content _ hne]
  rfl

/-- C6 (amended): the loader ignores columns outside the known schema;
an expected column missing from the row defaults its field to the empty
string for the ten plain text fields, while a missing Scraped At
defaults `scrapedAt` to the load-time clock and a missing Last Updated
defaults `lastUpdated` to the record's `scrapedAt`. -/
theorem claim_column_defaulting (row : List (String × String))
    (now : String) :
    (rowValue row "Title" = none → (jobOfRow row now).title = "") ∧
    (rowValue row "Company" = none → (jobOfRow row now).company = "") ∧
    (rowValue row "Location" = none → (jobOfRow row now).location = "") ∧
    (rowValue row "Job ID" = none → (jobOfRow row now).jobId = "") ∧
    (rowValue row "Posted Date" = none →
      (jobOfRow row now).postedDate = "") ∧
    (rowValue row "Description" = none →
      (jobOfRow row now).description = "") ∧
    (rowValue row "Requirements" = none →
      (jobOfRow row now).requirements = "") ∧
    (rowValue row "Experience" = none →
      (jobOfRow row now).experience = "") ∧
    (rowValue row "Link" = none → (jobOfRow row now).link = "") ∧
    (rowValue row "Source" = none → (jobOfRow row now).source = "") ∧
    (rowValue row "Scraped At" = none →
      (jobOfRow row now).scrapedAt = now) ∧
    (rowValue row "Last Updated" = none →
      (jobOfRow row now).lastUpdated = (jobOfRow row now).scrapedAt) ∧
    (∀ (r1 r2 : List (String × String)) (t v : String),
      t ∉ headerTitles → row = r1 ++ (t, v) :: r2 →
      jobOfRow row now = jobOfRow (r1 ++ r2) now) := by
  refine ⟨?_, ?_, ?_, ?_, ?_, ?_, ?_, ?_, ?_, ?_, ?_, ?_, ?_⟩
  · intro h; simp [jobOfRow, mkJob, jsOr, h]
  · intro h; simp [jobOfRow, mkJob, jsOr, h]
  · intro h; simp [jobOfRow, mkJob, jsOr, h]
  · intro h; simp [jobOfRow, mkJob, jsOr, h]
  · intro h; simp [jobOfRow, mkJob, jsOr, h]
  · intro h; simp [jobOfRow, mkJob, jsOr, h]
  · intro h; simp [jobOfRow, mkJob, jsOr, h]
  · intro h; simp [jobOfRow, mkJob, jsOr, h]
  · intro h; simp [jobOfRow, mkJob, jsOr, h]
  · intro h; simp [jobOfRow, mkJob, jsOr, h]
  · intro h; simp [jobOfRow, mkJob, jsOr, h]
  · intro h; simp [jobOfRow, mkJob, jsOr, h]
  · intro r1 r2 t v ht hrow
    subst hrow
    have hne : ∀ T, T ∈ headerTitles → T ≠ t := fun T hT he => ht (he ▸ hT)
    rw [jobOfRow, jobOfRow]
    refine congrArg (fun d => mkJob d now) ?_
    simp only [rowValue]
    rw [assocGet_middle r1 r2 t "Title" v (hne "Title" (by decide)),
      assocGet_middle r1 r2 t "Company" v (hne "Company" (by decide)),
      assocGet_middle r1 r2 t "Location" v (hne "Location" (by decide)),
      assocGet_middle r1 r2 t "Job ID" v (hne "Job ID" (by decide)),
      assocGet_middle r1 r2 t "Posted Date" v
        (hne "Posted Date" (by decide)),
      assocGet_middle r1 r2 t "Description" v
        (hne "Description" (by decide)),
      assocGet_middle r1 r2 t "Requirements" v
        (hne "Requirements" (by decide)),
      assocGet_middle r1 r2 t "Experience" v (hne "Experience" (by decide)),
      assocGet_middle r1 r2 t "Link" v (hne "Link" (by decide)),
      assocGet_middle r1 r2 t "Source" v (hne "Source" (by decide)),
      assocGet_middle r1 r2 t "Scraped At" v (hne "Scraped At" (by decide)),
      assocGet_middle r1 r2 t "Last Updated" v
        (hne "Last Updated" (by decide))]

/-- Witness for C6 (amended): defaults observed on a one-column row,
and an unknown column is ignored. -/
theorem claim_column_defaulting_witness :
    (jobOfRow [("Company", "ACME")] "2026-02-02T00:00:00.000Z").title =
      "" ∧
    (jobOfRow [("Company", "ACME")] "2026-02-02T00:00:00.000Z").scrapedAt =
      "2026-02-02T00:00:00.000Z" ∧
    jobOfRow [("Zzz", "1"), ("Company", "ACME")] "2026-02-02T00:00:00.000Z" =
      jobOfRow [("Company", "ACME")] "2026-02-02T00:00:00.000Z" :=
  ⟨(claim_column_defaulting [("Company", "ACME")]
      "2026-02-02T00:00:00.000Z").1 rfl,
   (claim_column_defaulting [("Company", "ACME")]
      "2026-02-02T00:00:00.000Z").2.2.2.2.2.2.2.2.2.2.1 rfl,
   (claim_column_defaulting [("Zzz", "1"), ("Company", "ACME")]
      "2026-02-02T00:00:00.000Z").2.2.2.2.2.2.2.2.2.2.2.2 []
      [("Company", "ACME")] "Zzz" "1" (by decide) rfl⟩

/-- C4: loading the file produced by saving a record set reproduces it
field-for-field for every stored column, with the identity key
recomputed from the reloaded fields rather than stored. -/
theorem claim_roundtrip_codec (fs : FSState) (R : List Job) (now : String)
    (h : ∀ j ∈ R, j.scrapedAt ≠ "" ∧ j.lastUpdated ≠ "") :
    loadJobsFromDatabase (saveJobsToDatabase fs R) now =
      .ok (R.map (fun j => { j with uniqueKey := recomputeKey j })) :=
  load_save_roundtrip fs R now h

/-- Witness for C4 on a record holding commas, quotes and a line
break. -/
theorem claim_roundtrip_codec_witness :
    loadJobsFromDatabase
        (saveJobsToDatabase ⟨FileState.absent, FileState.absent⟩
          [trickyRecord]) "2026-01-01T00:00:00.000Z" =
      .ok [{ trickyRecord with uniqueKey := recomputeKey trickyRecord }] :=
  claim_roundtrip_codec ⟨FileState.absent, FileState.absent⟩ [trickyRecord]
    "2026-01-01T00:00:00.000Z"
    (fun j hj => by
      rw [List.mem_singleton] at hj
      subst hj
      exact ⟨by decide, by decide⟩)

/-- C3: reconciling a record, then reconciling a modified candidate
with the same identity key, keeps the original `scrapedAt` (first-seen
timestamp, never overwritten by `Job.update`) while `lastUpdated`
strictly increases to the second cycle's clock. -/
theorem claim_first_seen_preserved (time : String → Int) (c c' : Job)
    (now1 now2 : String) (hc : c.wf) (hc' : c'.wf)
    (hkey : c'.uniqueKey = c.uniqueKey) (h2 : now2 ≠ "")
    (hlt : c.lastUpdated < now2) :
    (∀ (j n : Job) (t : String), j.scrapedAt ≠ "" →
      (Job.update j n t).scrapedAt = j.scrapedAt) ∧
    storeList (fetchNewJobOpenings time
        (fetchNewJobOpenings time ⟨FileState.absent, FileState.absent⟩
          [c] now1).2 [c'] now2).2 now2 = [Job.update c c' now2] ∧
    (Job.update c c' now2).scrapedAt = c.scrapedAt ∧
    (Job.update c c' now2).lastUpdated = now2 ∧
    c.lastUpdated < (Job.update c c' now2).lastUpdated := by
  refine ⟨fun j n t hj => update_scrapedAt j n t hj, ?_,
    update_scrapedAt c c' now2 hc.1, update_lastUpdated c c' now2 h2, ?_⟩
  · have hload0 : loadJobsFromDatabase
        ⟨FileState.absent, FileState.absent⟩ now1 = .ok [] := rfl
    rw [fetch_ok time ⟨FileState.absent, FileState.absent⟩ [c] now1 []
      hload0]
    have hm1 : mergeAll (buildMap []) [c] now1 = ([(c.uniqueKey, c)], [c]) :=
      rfl
    rw [hm1]
    show storeList (fetchNewJobOpenings time
        (exportJobsToCSV (saveJobsToDatabase
          ⟨FileState.absent, FileState.absent⟩ (sortJobs time [c])) [c])
        [c'] now2).2 now2 = _
    rw [sortJobs_singleton]
    have hload1 : loadJobsFromDatabase
        (exportJobsToCSV (saveJobsToDatabase
          ⟨FileState.absent, FileState.absent⟩ [c]) [c]) now2 = .ok [c] := by
      rw [load_exportJobsToCSV,
        load_save_wf ⟨FileState.absent, FileState.absent⟩ [c] now2
          (fun x hx => by rw [List.mem_singleton] at hx; subst hx; exact hc)]
    rw [fetch_ok time _ [c'] now2 [c] hload1]
    have hm2 : mergeAll (buildMap [c]) [c'] now2 =
        ([(c.uniqueKey, c.update c' now2)], []) := by
      rw [buildMap_singleton, mergeAll_single_hit c.uniqueKey c c' now2 hkey]
    rw [hm2]
    show storeList (exportJobsToCSV (saveJobsToDatabase _
      (sortJobs time [c.update c' now2])) []) now2 = _
    rw [sortJobs_singleton, storeList, load_exportJobsToCSV,
      load_save_wf _ [c.update c' now2] now2
        (fun x hx => by
          rw [List.mem_singleton] at hx
          subst hx
          exact update_wf c c' now2 hc.1 h2)]
  · rw [update_lastUpdated c c' now2 h2]
    exact hlt

/-- Witness for C3 on the spec's concrete scenario. -/
theorem claim_first_seen_preserved_witness :
    storeList (fetchNewJobOpenings digitKey
        (fetchNewJobOpenings digitKey ⟨FileState.absent, FileState.absent⟩
          [scenarioFirst] "2025-01-01T00:00:00.000Z").2 [scenarioSecond]
        "2025-02-02T00:00:00.000Z").2 "2025-02-02T00:00:00.000Z" =
      [Job.update scenarioFirst scenarioSecond "2025-02-02T00:00:00.000Z"] ∧
    (Job.update scenarioFirst scenarioSecond
      "2025-02-02T00:00:00.000Z").scrapedAt = scenarioFirst.scrapedAt ∧
    scenarioFirst.lastUpdated <
      (Job.update scenarioFirst scenarioSecond
        "2025-02-02T00:00:00.000Z").lastUpdated :=
  ⟨(claim_first_seen_preserved digitKey scenarioFirst scenarioSecond
      "2025-01-01T00:00:00.000Z" "2025-02-02T00:00:00.000Z" (by decide)
      (by decide) (by decide) (by decide)
      (by rw [String.lt_iff_toList_lt]; decide)).2.1,
   (claim_first_seen_preserved digitKey scenarioFirst scenarioSecond
      "2025-01-01T00:00:00.000Z" "2025-02-02T00:00:00.000Z" (by decide)
      (by decide) (by decide) (by decide)
      (by rw [String.lt_iff_toList_lt]; decide)).2.2.1,
   (claim_first_seen_preserved digitKey scenarioFirst scenarioSecond
      "2025-01-01T00:00:00.000Z" "2025-02-02T00:00:00.000Z" (by decide)
      (by decide) (by decide) (by decide)
      (by rw [String.lt_iff_toList_lt]; decide)).2.2.2.2⟩

/-- C1: reconciling the same candidate list twice in a row yields an
empty delta on the second call and leaves the persisted record count
unchanged. -/
theorem claim_idempotent_reconcile (time : String → Int) (fs : FSState)
    (X : List Job) (now1 now2 : String) (hX : ∀ j ∈ X, j.wf)
    (h1 : now1 ≠ "") (h2 : now2 ≠ "")
    (hread : fs.store ≠ FileState.unreadable) :
    (fetchNewJobOpenings time (fetchNewJobOpenings time fs X now1).2 X
        now2).1 = .ok [] ∧
    (storeList (fetchNewJobOpenings time
        (fetchNewJobOpenings time fs X now1).2 X now2).2 now2).length =
      (storeList (fetchNewJobOpenings time fs X now1).2 now2).length := by
  obtain ⟨ex, hload⟩ : ∃ ex, loadJobsFromDatabase fs now1 = .ok ex := by
    rcases hst : fs.store with _ | c
    · exact ⟨[], by rw [loadJobsFromDatabase, hst]⟩
    · exact ⟨loadFromContent c now1, by rw [loadJobsFromDatabase, hst]⟩
    · exact absurd hst hread
  have hexwf : ∀ j ∈ ex, j.wf := load_wf fs now1 ex h1 hload
  have hEm0 : EntryOk (buildMap ex) := by
    intro p hp
    obtain ⟨j, hj, hpj⟩ := buildMap_entries ex p hp
    subst hpj
    exact ⟨rfl, hexwf j hj⟩
  have hE1 : EntryOk (mergeAll (buildMap ex) X now1).1 :=
    mergeAll_entryOk (buildMap ex) X now1 h1 hX hEm0
  have hnodup1 : ((mergeAll (buildMap ex) X now1).1.map Prod.fst).Nodup :=
    mergeAll_nodup_aux X now1 (buildMap ex) [] (nodup_keys_buildMap ex)
  have hall1wf : ∀ j ∈ sortJobs time
      (mapValues (mergeAll (buildMap ex) X now1).1), j.wf := by
    intro j hj
    have hj' : j ∈ mapValues (mergeAll (buildMap ex) X now1).1 :=
      (sortJobs_perm time _).mem_iff.mp hj
    rw [mapValues] at hj'
    obtain ⟨p, hp, hpj⟩ := List.mem_map.mp hj'
    subst hpj
    exact (hE1 p hp).2
  have hfetch1 := fetch_ok time fs X now1 ex hload
  have hload1 : loadJobsFromDatabase (fetchNewJobOpenings time fs X now1).2
      now2 = .ok (sortJobs time
        (mapValues (mergeAll (buildMap ex) X now1).1)) := by
    rw [hfetch1, load_exportJobsToCSV,
      load_save_wf fs _ now2 hall1wf]
  have hkeys1 : (mergeAll (buildMap ex) X now1).1.map Prod.fst =
      (mapValues (mergeAll (buildMap ex) X now1).1).map Job.uniqueKey :=
    keys_eq_values_map _ (fun p hp => (hE1 p hp).1)
  have hhit : ∀ x ∈ X, x.uniqueKey ∈ (buildMap (sortJobs time
      (mapValues (mergeAll (buildMap ex) X now1).1))).map Prod.fst := by
    intro x hx
    rw [mem_keys_buildMap]
    have hk1 : x.uniqueKey ∈ (mergeAll (buildMap ex) X now1).1.map Prod.fst :=
      mem_keys_mergeAll (buildMap ex) X now1 x hx
    rw [hkeys1] at hk1
    exact ((sortJobs_perm time _).map Job.uniqueKey).mem_iff.mpr hk1
  have hfetch2 := fetch_ok time (fetchNewJobOpenings time fs X now1).2 X
    now2 _ hload1
  have hmhit := mergeAll_hit (buildMap (sortJobs time
    (mapValues (mergeAll (buildMap ex) X now1).1))) X now2 hhit
  have hEb1 : EntryOk (buildMap (sortJobs time
      (mapValues (mergeAll (buildMap ex) X now1).1))) := by
    intro p hp
    obtain ⟨j, hj, hpj⟩ := buildMap_entries _ p hp
    subst hpj
    exact ⟨rfl, hall1wf j hj⟩
  have hE2 : EntryOk (mergeAll (buildMap (sortJobs time
      (mapValues (mergeAll (buildMap ex) X now1).1))) X now2).1 :=
    mergeAll_entryOk _ X now2 h2 hX hEb1
  have hall2wf : ∀ j ∈ sortJobs time (mapValues (mergeAll (buildMap
      (sortJobs time (mapValues (mergeAll (buildMap ex) X now1).1))) X
        now2).1), j.wf := by
    intro j hj
    have hj' := (sortJobs_perm time _).mem_iff.mp hj
    rw [mapValues] at hj'
    obtain ⟨p, hp, hpj⟩ := List.mem_map.mp hj'
    subst hpj
    exact (hE2 p hp).2
  have hsl1 : storeList (fetchNewJobOpenings time fs X now1).2 now2 =
      sortJobs time (mapValues (mergeAll (buildMap ex) X now1).1) := by
    rw [storeList, hload1]
  have hsl2 : storeList (fetchNewJobOpenings time
      (fetchNewJobOpenings time fs X now1).2 X now2).2 now2 =
      sortJobs time (mapValues (mergeAll (buildMap (sortJobs time
        (mapValues (mergeAll (buildMap ex) X now1).1))) X now2).1) := by
    rw [hfetch2, storeList, load_exportJobsToCSV,
      load_save_wf _ _ now2 hall2wf]
  have hnodupAll1 : ((sortJobs time (mapValues
      (mergeAll (buildMap ex) X now1).1)).map Job.uniqueKey).Nodup := by
    refine ((sortJobs_perm time _).map Job.uniqueKey).nodup_iff.mpr ?_
    rw [← hkeys1]
    exact hnodup1
  constructor
  · rw [hfetch2]
    show Except.ok (mergeAll (buildMap (sortJobs time
      (mapValues (mergeAll (buildMap ex) X now1).1))) X now2).2 = .ok []
    rw [hmhit.1]
  · rw [hsl1, hsl2]
    rw [sortJobs_length]
    have hlen2 : (mapValues (mergeAll (buildMap (sortJobs time
        (mapValues (mergeAll (buildMap ex) X now1).1))) X now2).1).length =
        ((mergeAll (buildMap (sortJobs time (mapValues
          (mergeAll (buildMap ex) X now1).1))) X now2).1.map
            Prod.fst).length := by
      rw [mapValues]
      simp
    rw [hlen2, hmhit.2]
    have hlenb : ((buildMap (sortJobs time (mapValues
        (mergeAll (buildMap ex) X now1).1))).map Prod.fst).length =
        (buildMap (sortJobs time (mapValues
          (mergeAll (buildMap ex) X now1).1))).length := by
      simp
    rw [hlenb, length_buildMap_of_nodup _ hnodupAll1]

/-- Witness for C1 on a concrete one-candidate list over an absent
store. -/
theorem claim_idempotent_reconcile_witness :
    (fetchNewJobOpenings digitKey
        (fetchNewJobOpenings digitKey ⟨FileState.absent, FileState.absent⟩
          [scenarioFirst] "2025-01-01T00:00:00.000Z").2 [scenarioFirst]
        "2025-01-02T00:00:00.000Z").1 = .ok [] ∧
    (storeList (fetchNewJobOpenings digitKey
        (fetchNewJobOpenings digitKey ⟨FileState.absent, FileState.absent⟩
          [scenarioFirst] "2025-01-01T00:00:00.000Z").2 [scenarioFirst]
        "2025-01-02T00:00:00.000Z").2 "2025-01-02T00:00:00.000Z").length =
      (storeList (fetchNewJobOpenings digitKey
        ⟨FileState.absent, FileState.absent⟩ [scenarioFirst]
        "2025-01-01T00:00:00.000Z").2 "2025-01-02T00:00:00.000Z").length :=
  claim_idempotent_reconcile digitKey ⟨FileState.absent, FileState.absent⟩
    [scenarioFirst] "2025-01-01T00:00:00.000Z" "2025-01-02T00:00:00.000Z"
    (fun j hj => by rw [List.mem_singleton] at hj; subst hj; decide)
    (by decide) (by decide) (by decide)

end Hunter
